import Mathlib

/-!
Verification of the LEO InfoExtractor pipeline (repository `AbhigyanVE/LEO-s-Use-Cases`,
directory `InfoExtractor/`) against its natural-language specification.

The four pipeline variants are embedded shallowly:
* `App`       — `InfoExtractor/app.py`     (rules + NER + conditional LLM gap fill)
* `UsingLLM`  — `InfoExtractor/using_LLM.py`  (CSV cache + LLM extraction)
* `UsingML`   — `InfoExtractor/using_ML.py`   (pure rule-based extraction)
* `UsingHGBert` — `InfoExtractor/using_HGBert.py` (NER-based extraction)

JSON values are modelled by an inductive `Json`; Python dictionaries are modelled as
insertion-ordered association lists with Python's `dict.update` / `dict.get` semantics.
External collaborators (HTTP fetch, BeautifulSoup, the NER model, the OpenAI client)
are parameters of the embedded pipeline functions: each pipeline takes the collaborator
outputs as explicit arguments and is otherwise a faithful translation of the Python
control flow.
-/

/-- JSON values as produced by `json.loads`. Numbers are modelled as integers
(no claim touches fractional numeric payloads). -/
inductive Json where
  | null : Json
  | bool : Bool → Json
  | num  : Int → Json
  | str  : String → Json
  | arr  : List Json → Json
  | obj  : List (String × Json) → Json
deriving Repr

/-- Python truthiness (`bool(x)`) of a JSON value: `None`, `False`, `0`, `""`,
`[]` and `{}` are falsy, everything else is truthy. -/
def Json.truthy : Json → Bool
  | .null => false
  | .bool b => b
  | .num n => n ≠ 0
  | .str s => s ≠ ""
  | .arr xs => !xs.isEmpty
  | .obj kvs => !kvs.isEmpty

/-- Python `d.get(k)` on an insertion-ordered dictionary (first binding wins;
dictionaries built by the pipeline have unique keys). -/
def dictGet (d : List (String × Json)) (k : String) : Option Json :=
  (d.find? (fun p => p.1 = k)).map (·.2)

/-- Python `d[k] = v`: replace the binding in place if the key exists (keeping its
position), otherwise append a new binding at the end. -/
def dictSet : List (String × Json) → String → Json → List (String × Json)
  | [], k, v => [(k, v)]
  | p :: d, k, v => if p.1 = k then (k, v) :: d else p :: dictSet d k v

/-- Python `d.update(u)`: assign every binding of `u`, in `u`'s order, into `d`. -/
def dictUpdate (d u : List (String × Json)) : List (String × Json) :=
  u.foldl (fun acc p => dictSet acc p.1 p.2) d

/-- Value of the last binding of `k` in `u` (the one `dict.update` retains when
`u` itself repeats a key). -/
def lastGet (u : List (String × Json)) (k : String) : Option Json :=
  (u.reverse.find? (fun p => p.1 = k)).map (·.2)

theorem dictGet_nil (k : String) : dictGet [] k = none := rfl

theorem dictGet_cons (p : String × Json) (d : List (String × Json)) (k : String) :
    dictGet (p :: d) k = if p.1 = k then some p.2 else dictGet d k := by
  by_cases h : p.1 = k <;> simp [dictGet, h]

theorem dictGet_dictSet (d : List (String × Json)) (k k' : String) (v : Json) :
    dictGet (dictSet d k v) k' = if k' = k then some v else dictGet d k' := by
  induction d with
  | nil =>
    by_cases h : k' = k
    · simp [dictSet, dictGet_cons, dictGet_nil, h]
    · simp [dictSet, dictGet_cons, dictGet_nil, h, Ne.symm h]
  | cons p d ih =>
    by_cases hp : p.1 = k
    · by_cases hk : k' = k
      · simp [dictSet, hp, dictGet_cons, hk]
      · have hq : ¬ p.1 = k' := by rw [hp]; exact Ne.symm hk
        simp [dictSet, hp, dictGet_cons, hk, Ne.symm hk, hq]
    · by_cases hq : p.1 = k'
      · have hk : ¬ k' = k := fun h => hp (h ▸ hq)
        simp [dictSet, hp, dictGet_cons, hq, hk]
      · simp [dictSet, hp, dictGet_cons, hq, ih]

theorem lastGet_nil (k : String) : lastGet [] k = none := rfl

theorem lastGet_cons (p : String × Json) (u : List (String × Json)) (k : String) :
    lastGet (p :: u) k = (lastGet u k).or (if p.1 = k then some p.2 else none) := by
  rcases hu : (u.reverse.find? (fun q => q.1 = k)) with _ | q
  · by_cases h : p.1 = k <;> simp [lastGet, List.find?_append, hu, h]
  · simp [lastGet, List.find?_append, hu]

theorem dictGet_dictUpdate (u d : List (String × Json)) (k : String) :
    dictGet (dictUpdate d u) k = (lastGet u k).or (dictGet d k) := by
  induction u generalizing d with
  | nil => simp [dictUpdate, lastGet_nil]
  | cons p u ih =>
    have hstep : dictUpdate d (p :: u) = dictUpdate (dictSet d p.1 p.2) u := rfl
    rw [hstep, ih, dictGet_dictSet, lastGet_cons]
    rcases h : lastGet u k with _ | v
    · by_cases hk : k = p.1
      · simp [hk]
      · simp [hk, Ne.symm hk]
    · simp

/-- Python-style order-preserving deduplication (`dict.fromkeys`): keeps the first
occurrence of each element. The accumulator records elements already emitted. -/
def pdedupAux (seen : List String) : List String → List String
  | [] => []
  | x :: xs => if x ∈ seen then pdedupAux seen xs else x :: pdedupAux (x :: seen) xs

/-- `list(dict.fromkeys(l))`: deduplicate keeping first occurrences, order preserved. -/
def pdedup (l : List String) : List String :=
  pdedupAux [] l

theorem mem_pdedupAux (seen : List String) (l : List String) (a : String) :
    a ∈ pdedupAux seen l ↔ a ∈ l ∧ a ∉ seen := by
  induction l generalizing seen with
  | nil => simp [pdedupAux]
  | cons x xs ih =>
    by_cases hx : x ∈ seen
    · simp only [pdedupAux, if_pos hx, ih, List.mem_cons]
      constructor
      · rintro ⟨h1, h2⟩; exact ⟨Or.inr h1, h2⟩
      · rintro ⟨h1 | h1, h2⟩
        · exact absurd (h1 ▸ hx) h2
        · exact ⟨h1, h2⟩
    · simp only [pdedupAux, if_neg hx, List.mem_cons, ih]
      by_cases hax : a = x
      · subst hax; simp [hx]
      · simp [hax]

theorem mem_pdedup (l : List String) (a : String) : a ∈ pdedup l ↔ a ∈ l := by
  simp [pdedup, mem_pdedupAux]

theorem nodup_pdedupAux (seen : List String) (l : List String) :
    (pdedupAux seen l).Nodup := by
  induction l generalizing seen with
  | nil => simp [pdedupAux]
  | cons x xs ih =>
    by_cases hx : x ∈ seen
    · simpa [pdedupAux, if_pos hx] using ih seen
    · simp only [pdedupAux, if_neg hx, List.nodup_cons]
      refine ⟨fun hmem => ?_, ih (x :: seen)⟩
      exact ((mem_pdedupAux _ _ _).mp hmem).2 (List.mem_cons_self _ _)

theorem nodup_pdedup (l : List String) : (pdedup l).Nodup :=
  nodup_pdedupAux [] l

theorem sublist_pdedupAux (seen : List String) (l : List String) :
    List.Sublist (pdedupAux seen l) l := by
  induction l generalizing seen with
  | nil => simp [pdedupAux]
  | cons x xs ih =>
    by_cases hx : x ∈ seen
    · simpa [pdedupAux, if_pos hx] using List.Sublist.cons x (ih seen)
    · simpa [pdedupAux, if_neg hx] using List.Sublist.cons₂ x (ih (x :: seen))

theorem sublist_pdedup (l : List String) : List.Sublist (pdedup l) l :=
  sublist_pdedupAux [] l

/-!
Embedding of the price regular expression shared by `app.py` (`extract_price`),
`using_ML.py` and `using_HGBert.py`:

`re.search(r"(₹|\$|€|INR|USD|EUR)\s?[\d,]+(\.\d+)?", text)`

`re.search` scans start positions left to right and returns the first position
where the pattern matches, with Python's backtracking semantics: the currency
alternatives are tried in order, `\s?` and `[\d,]+` and `(\.\d+)?` are greedy.
ASCII whitespace and ASCII digits model `\s` and `\d` (the repository's inputs
and the specification's examples only exercise ASCII here).
-/
namespace Price

/-- Characters matched by `\s` (ASCII portion). -/
def isSpaceChar (c : Char) : Bool :=
  c = ' ' || c = '\t' || c = '\n' || c = '\r' || c = '\x0b' || c = '\x0c'

/-- Characters matched by the class `[\d,]`. -/
def isAmountChar (c : Char) : Bool :=
  c.isDigit || c = ','

/-- The currency alternatives `₹|\$|€|INR|USD|EUR`, in the order the regex
tries them. -/
def currencyAlts : List (List Char) :=
  [['₹'], ['$'], ['€'], ['I', 'N', 'R'], ['U', 'S', 'D'], ['E', 'U', 'R']]

/-- Match a literal character sequence; on success return the remaining input. -/
def matchLit : List Char → List Char → Option (List Char)
  | [], cs => some cs
  | _ :: _, [] => none
  | p :: ps, c :: cs => if c = p then matchLit ps cs else none

/-- Greedy run of characters satisfying `p` (models `X+` / `X*` repetition):
returns the maximal run and the rest. -/
def takeRun (p : Char → Bool) : List Char → List Char × List Char
  | [] => ([], [])
  | c :: cs =>
      if p c then
        let r := takeRun p cs
        (c :: r.1, r.2)
      else ([], c :: cs)

/-- The optional group `(\.\d+)?`: text matched by the group (possibly empty). -/
def matchDec : List Char → List Char
  | [] => []
  | c :: rest =>
      if c = '.' then
        let r := takeRun Char.isDigit rest
        if r.1.isEmpty then [] else '.' :: r.1
      else []

/-- `[\d,]+(\.\d+)?`, greedily. -/
def matchNum (cs : List Char) : Option (List Char) :=
  let r := takeRun isAmountChar cs
  if r.1.isEmpty then none else some (r.1 ++ matchDec r.2)

/-- `\s?[\d,]+(\.\d+)?`: try consuming one whitespace first (greedy `\s?`),
backtracking to the empty match if the rest fails. -/
def matchAfterCur : List Char → Option (List Char)
  | [] => none
  | c :: rest =>
      if isSpaceChar c then
        match matchNum rest with
        | some m => some (c :: m)
        | none => matchNum (c :: rest)
      else matchNum (c :: rest)

/-- Try the currency alternatives in order; an alternative whose literal matches
but whose continuation fails is abandoned for the next one (regex backtracking). -/
def tryAlts : List (List Char) → List Char → Option (List Char)
  | [], _ => none
  | a :: as, cs =>
      match matchLit a cs with
      | some rest =>
          match matchAfterCur rest with
          | some m => some (a ++ m)
          | none => tryAlts as cs
      | none => tryAlts as cs

/-- Whole pattern anchored at the current position. -/
def matchPriceAt (cs : List Char) : Option (List Char) :=
  tryAlts currencyAlts cs

/-- `re.search`: first start position (left to right) where the pattern matches. -/
def searchPrice : List Char → Option (List Char)
  | [] => none
  | c :: cs =>
      match matchPriceAt (c :: cs) with
      | some m => some m
      | none => searchPrice cs

/-- `extract_price` of `app.py` (`match.group(0) if match else None`); the same
regex search is inlined in `using_ML.py` and `using_HGBert.py`. -/
def extract_price (text : String) : Option String :=
  (searchPrice text.toList).map fun cs => String.mk cs

/-- Declarative reading of the matched text, written from the specification's
description of the pattern: a currency marker, an optional single whitespace,
digits with optional comma separators, an optional decimal part. -/
def SpaceOpt (sp : List Char) : Prop :=
  sp = [] ∨ ∃ c, sp = [c] ∧ isSpaceChar c = true

def AmountShaped (m : List Char) : Prop :=
  ∃ num dec, m = num ++ dec ∧ num ≠ [] ∧ (∀ c ∈ num, isAmountChar c = true) ∧
    (dec = [] ∨ ∃ ds, dec = '.' :: ds ∧ ds ≠ [] ∧ ∀ c ∈ ds, c.isDigit = true)

def TailShaped (m : List Char) : Prop :=
  ∃ sp amt, m = sp ++ amt ∧ SpaceOpt sp ∧ AmountShaped amt

def PriceShaped (m : List Char) : Prop :=
  ∃ cur tail, m = cur ++ tail ∧ cur ∈ currencyAlts ∧ TailShaped tail

/-- `m` occurs as an initial segment of `cs`. -/
def HeadMatch (m cs : List Char) : Prop :=
  ∃ rest, cs = m ++ rest

theorem matchLit_some_iff (p cs r : List Char) :
    matchLit p cs = some r ↔ cs = p ++ r := by
  induction p generalizing cs with
  | nil => simp [matchLit, eq_comm]
  | cons x ps ih =>
    cases cs with
    | nil => simp [matchLit]
    | cons c cs' =>
      by_cases h : c = x
      · subst h; simp [matchLit, ih]
      · simp [matchLit, h]

theorem takeRun_append (p : Char → Bool) (cs : List Char) :
    (takeRun p cs).1 ++ (takeRun p cs).2 = cs := by
  induction cs with
  | nil => simp [takeRun]
  | cons c cs ih => by_cases h : p c <;> simp [takeRun, h, ih]

theorem takeRun_pred (p : Char → Bool) (cs : List Char) :
    ∀ c ∈ (takeRun p cs).1, p c = true := by
  induction cs with
  | nil => simp [takeRun]
  | cons c cs ih =>
    by_cases h : p c
    · simp only [takeRun, if_pos h]
      intro x hx
      rcases List.mem_cons.mp hx with hx | hx
      · exact hx ▸ h
      · exact ih x hx
    · simp [takeRun, h]

theorem takeRun_cons_pos (p : Char → Bool) (c : Char) (cs : List Char) (h : p c = true) :
    takeRun p (c :: cs) = (c :: (takeRun p cs).1, (takeRun p cs).2) := by
  simp [takeRun, h]

theorem matchDec_shape (cs : List Char) :
    matchDec cs = [] ∨
      ∃ ds, matchDec cs = '.' :: ds ∧ ds ≠ [] ∧ ∀ c ∈ ds, c.isDigit = true := by
  cases cs with
  | nil => exact Or.inl rfl
  | cons c rest =>
    by_cases h : c = '.'
    · by_cases he : (takeRun Char.isDigit rest).1.isEmpty
      · exact Or.inl (by simp [matchDec, h, he])
      · refine Or.inr ⟨(takeRun Char.isDigit rest).1, by simp [matchDec, h, he], ?_, ?_⟩
        · simpa [List.isEmpty_iff] using he
        · exact takeRun_pred Char.isDigit rest
    · exact Or.inl (by simp [matchDec, h])

theorem matchDec_head (cs : List Char) : ∃ rest, cs = matchDec cs ++ rest := by
  cases cs with
  | nil => exact ⟨[], rfl⟩
  | cons c rest =>
    by_cases h : c = '.'
    · by_cases he : (takeRun Char.isDigit rest).1.isEmpty
      · exact ⟨c :: rest, by simp [matchDec, h, he]⟩
      · refine ⟨(takeRun Char.isDigit rest).2, ?_⟩
        subst h
        simp [matchDec, he, takeRun_append]
    · exact ⟨c :: rest, by simp [matchDec, h]⟩

theorem matchNum_some (cs m : List Char) (h : matchNum cs = some m) :
    AmountShaped m ∧ HeadMatch m cs := by
  by_cases he : (takeRun isAmountChar cs).1.isEmpty
  · simp [matchNum, he] at h
  · simp only [matchNum, if_neg he, Option.some.injEq] at h
    subst h
    constructor
    · refine ⟨(takeRun isAmountChar cs).1, matchDec (takeRun isAmountChar cs).2, rfl, ?_,
        takeRun_pred isAmountChar cs, matchDec_shape _⟩
      simpa [List.isEmpty_iff] using he
    · obtain ⟨rest, hrest⟩ := matchDec_head (takeRun isAmountChar cs).2
      exact ⟨rest, by rw [List.append_assoc, ← hrest, takeRun_append]⟩

theorem matchNum_isSome (cs m : List Char) (hm : AmountShaped m) (hh : HeadMatch m cs) :
    (matchNum cs).isSome := by
  obtain ⟨num, dec, hmeq, hne, hnum, _⟩ := hm
  obtain ⟨rest, hrest⟩ := hh
  cases num with
  | nil => exact absurd rfl hne
  | cons c num' =>
    have hc : isAmountChar c = true := hnum c (List.mem_cons_self _ _)
    subst hmeq
    subst hrest
    simp [matchNum, takeRun_cons_pos isAmountChar c _ hc]

theorem space_not_amount (c : Char) (h : isSpaceChar c = true) : isAmountChar c = false := by
  simp only [isSpaceChar, Bool.or_eq_true, decide_eq_true_eq] at h
  rcases h with ((((h | h) | h) | h) | h) | h <;> subst h <;> decide

theorem matchAfterCur_some (cs m : List Char) (h : matchAfterCur cs = some m) :
    TailShaped m ∧ HeadMatch m cs := by
  cases cs with
  | nil => simp [matchAfterCur] at h
  | cons c rest =>
    by_cases hs : isSpaceChar c
    · rcases hn : matchNum rest with _ | m'
      · simp only [matchAfterCur, if_pos hs, hn] at h
        obtain ⟨ha, hh⟩ := matchNum_some _ _ h
        exact ⟨⟨[], m, by simp, Or.inl rfl, ha⟩, hh⟩
      · simp only [matchAfterCur, if_pos hs, hn, Option.some.injEq] at h
        subst h
        obtain ⟨ha, rest2, hh⟩ := matchNum_some _ _ hn
        exact ⟨⟨[c], m', rfl, Or.inr ⟨c, rfl, hs⟩, ha⟩, ⟨rest2, by simp [hh]⟩⟩
    · simp only [matchAfterCur, if_neg hs] at h
      obtain ⟨ha, hh⟩ := matchNum_some _ _ h
      exact ⟨⟨[], m, by simp, Or.inl rfl, ha⟩, hh⟩

theorem matchAfterCur_isSome (cs m : List Char) (hm : TailShaped m) (hh : HeadMatch m cs) :
    (matchAfterCur cs).isSome := by
  obtain ⟨sp, amt, hmeq, hsp, hamt⟩ := hm
  obtain ⟨rest, hrest⟩ := hh
  rcases hsp with hsp | ⟨c0, hsp, hc0⟩
  · subst hsp
    simp only [List.nil_append] at hmeq
    subst hmeq
    obtain ⟨num, dec, haeq, hne, hnum, _⟩ := hamt
    cases num with
    | nil => exact absurd rfl hne
    | cons c num' =>
      have hc : isAmountChar c = true := hnum c (List.mem_cons_self _ _)
      have hcs : isSpaceChar c = false := by
        cases hsc : isSpaceChar c
        · rfl
        · rw [space_not_amount c hsc] at hc; exact absurd hc (by simp)
      subst haeq
      subst hrest
      simp only [List.cons_append, List.append_assoc] at *
      simp [matchAfterCur, hcs, matchNum, takeRun_cons_pos isAmountChar c _ hc]
  · subst hsp
    subst hmeq
    subst hrest
    have hnum : (matchNum (amt ++ rest)).isSome :=
      matchNum_isSome _ amt hamt ⟨rest, rfl⟩
    rcases hn : matchNum (amt ++ rest) with _ | m'
    · rw [hn] at hnum; exact absurd hnum (by simp)
    · simp [matchAfterCur, hc0, hn]

theorem tryAlts_some (alts : List (List Char)) (cs m : List Char)
    (h : tryAlts alts cs = some m) :
    ∃ cur, cur ∈ alts ∧ ∃ tail, m = cur ++ tail ∧ TailShaped tail ∧ HeadMatch m cs := by
  induction alts with
  | nil => simp [tryAlts] at h
  | cons a as ih =>
    rcases hl : matchLit a cs with _ | rest
    · simp only [tryAlts, hl] at h
      obtain ⟨cur, hc, htail⟩ := ih h
      exact ⟨cur, List.mem_cons_of_mem _ hc, htail⟩
    · rcases ha : matchAfterCur rest with _ | m'
      · simp only [tryAlts, hl, ha] at h
        obtain ⟨cur, hc, htail⟩ := ih h
        exact ⟨cur, List.mem_cons_of_mem _ hc, htail⟩
      · simp only [tryAlts, hl, ha, Option.some.injEq] at h
        subst h
        obtain ⟨hts, rest2, hrest2⟩ := matchAfterCur_some _ _ ha
        have hcs : cs = a ++ rest := (matchLit_some_iff a cs rest).mp hl
        exact ⟨a, List.mem_cons_self _ _, m', rfl, hts,
          ⟨rest2, by rw [hcs, hrest2, List.append_assoc]⟩⟩

theorem tryAlts_isSome (alts : List (List Char)) (cs : List Char)
    (h : ∃ cur, cur ∈ alts ∧ ∃ tail, TailShaped tail ∧ HeadMatch (cur ++ tail) cs) :
    (tryAlts alts cs).isSome := by
  induction alts with
  | nil =>
    obtain ⟨cur, hc, _⟩ := h
    simp at hc
  | cons a as ih =>
    obtain ⟨cur, hcur, tail, htail, rest, hrest⟩ := h
    by_cases hca : cur = a
    · subst hca
      have hl : matchLit cur cs = some (tail ++ rest) :=
        (matchLit_some_iff cur cs (tail ++ rest)).mpr (by rw [hrest, List.append_assoc])
      have hma : (matchAfterCur (tail ++ rest)).isSome :=
        matchAfterCur_isSome _ tail htail ⟨rest, rfl⟩
      rcases ha : matchAfterCur (tail ++ rest) with _ | m'
      · rw [ha] at hma; exact absurd hma (by simp)
      · simp [tryAlts, hl, ha]
    · have hcas : cur ∈ as := by
        rcases List.mem_cons.mp hcur with h' | h'
        · exact absurd h' hca
        · exact h'
      have hih := ih ⟨cur, hcas, tail, htail, rest, hrest⟩
      rcases hl : matchLit a cs with _ | rest'
      · simpa [tryAlts, hl] using hih
      · rcases ha : matchAfterCur rest' with _ | m'
        · simpa [tryAlts, hl, ha] using hih
        · simp [tryAlts, hl, ha]

theorem matchPriceAt_some (cs m : List Char) (h : matchPriceAt cs = some m) :
    PriceShaped m ∧ HeadMatch m cs := by
  obtain ⟨cur, hc, tail, hm, hts, hh⟩ := tryAlts_some _ _ _ h
  exact ⟨⟨cur, tail, hm, hc, hts⟩, hh⟩

theorem matchPriceAt_isSome (cs m : List Char) (hm : PriceShaped m) (hh : HeadMatch m cs) :
    (matchPriceAt cs).isSome := by
  obtain ⟨cur, tail, hmeq, hc, hts⟩ := hm
  exact tryAlts_isSome _ _ ⟨cur, hc, tail, hts, hmeq ▸ hh⟩

theorem matchPriceAt_none_iff (cs : List Char) :
    matchPriceAt cs = none ↔ ¬ ∃ m, PriceShaped m ∧ HeadMatch m cs := by
  constructor
  · rintro h ⟨m, hm, hh⟩
    have := matchPriceAt_isSome cs m hm hh
    rw [h] at this
    exact absurd this (by simp)
  · intro h
    rcases hm : matchPriceAt cs with _ | m
    · rfl
    · obtain ⟨hp, hh⟩ := matchPriceAt_some cs m hm
      exact absurd ⟨m, hp, hh⟩ h

theorem searchPrice_eq_none_iff (cs : List Char) :
    searchPrice cs = none ↔ ∀ i, matchPriceAt (cs.drop i) = none := by
  induction cs with
  | nil =>
    simp only [searchPrice, List.drop_nil, true_iff]
    intro i
    decide
  | cons c cs ih =>
    rcases hm : matchPriceAt (c :: cs) with _ | m
    · simp only [searchPrice, hm, ih]
      constructor
      · intro h i
        cases i with
        | zero => exact hm
        | succ i => exact h i
      · intro h i
        exact h (i + 1)
    · simp only [searchPrice, hm]
      constructor
      · intro h; exact absurd h (by simp)
      · intro h
        have := h 0
        simp only [List.drop_zero] at this
        rw [hm] at this
        exact absurd this (by simp)

theorem searchPrice_some (cs m : List Char) (h : searchPrice cs = some m) :
    ∃ i, matchPriceAt (cs.drop i) = some m ∧ ∀ j, j < i → matchPriceAt (cs.drop j) = none := by
  induction cs with
  | nil => simp [searchPrice] at h
  | cons c cs ih =>
    rcases hm : matchPriceAt (c :: cs) with _ | m'
    · simp only [searchPrice, hm] at h
      obtain ⟨i, h1, h2⟩ := ih h
      refine ⟨i + 1, by simpa using h1, ?_⟩
      intro j hj
      cases j with
      | zero => simpa using hm
      | succ j => simpa using h2 j (Nat.lt_of_succ_lt_succ hj)
    · simp only [searchPrice, hm, Option.some.injEq] at h
      subst h
      exact ⟨0, by simpa using hm, fun j hj => absurd hj (Nat.not_lt_zero j)⟩

end Price

/-!
`make_json_safe` (`app.py` / `using_HGBert.py`): recursively rebuilds dicts and
lists. On the embedded `Json` values — which carry no numpy scalar objects, the
only case the `hasattr(obj, "item")` branch exists for — every leaf is returned
unchanged.
-/
mutual

def makeJsonSafe : Json → Json
  | .null => .null
  | .bool b => .bool b
  | .num n => .num n
  | .str s => .str s
  | .arr xs => .arr (makeJsonSafeList xs)
  | .obj kvs => .obj (makeJsonSafePairs kvs)

def makeJsonSafeList : List Json → List Json
  | [] => []
  | x :: xs => makeJsonSafe x :: makeJsonSafeList xs

def makeJsonSafePairs : List (String × Json) → List (String × Json)
  | [] => []
  | p :: xs => (p.1, makeJsonSafe p.2) :: makeJsonSafePairs xs

end

theorem lastGet_makeJsonSafePairs (u : List (String × Json)) (k : String) :
    lastGet (makeJsonSafePairs u) k = (lastGet u k).map makeJsonSafe := by
  induction u with
  | nil => simp [makeJsonSafePairs, lastGet_nil]
  | cons p u ih =>
    have hstep : makeJsonSafePairs (p :: u) = (p.1, makeJsonSafe p.2) :: makeJsonSafePairs u :=
      rfl
    rw [hstep, lastGet_cons, lastGet_cons, ih]
    rcases lastGet u k with _ | v
    · by_cases h : p.1 = k <;> simp [h]
    · simp

/-- Substring membership test, Python's `pat in text`. -/
def hasSub (pat : List Char) : List Char → Bool
  | [] => pat.isEmpty
  | c :: cs => (Price.matchLit pat (c :: cs)).isSome || hasSub pat cs

/-- Python `s.startswith(pre)`. -/
def strStarts (pre s : String) : Bool :=
  (Price.matchLit pre.toList s.toList).isSome

/-- The characters of Python `text.lower()` (ASCII case folding, which covers
every keyword the extractors search for). -/
def lowerChars (t : String) : List Char :=
  t.toList.map Char.toLower

/-!
Embedding of `app.py`: the combined rules + NER + conditional-LLM pipeline.
The cleaned document is represented by the collaborator outputs the extraction
code reads from it: the flattened page text, the texts of `section`/`div`
elements (document order), the texts of `div` elements, and the `src`
attributes of `img` elements.
-/
namespace App

structure Doc where
  text : String
  sectionTexts : List String
  divTexts : List String
  imgSrcs : List (Option String)

/-- Named entities as returned by the NER pipeline after `make_json_safe`.
The model's numeric score and span fields are not read by any code under
verification and are omitted. -/
structure Entity where
  word : String
  group : String
deriving Repr, DecidableEq

def entityJson (e : Entity) : Json :=
  .obj [("word", .str e.word), ("entity_group", .str e.group)]

/-- `extract_price` (`app.py` lines 59–64). -/
def extract_price (text : String) : Option String :=
  Price.extract_price text

/-- Keyword lexicon of `extract_features`. -/
def featureKeywords : List String :=
  ["feature", "equipped", "interior", "technology", "design", "assistant", "display"]

def featurePred (t : String) : Bool :=
  decide (80 < t.length) && decide (t.length < 600) &&
    featureKeywords.any fun w => hasSub w.toList (lowerChars t)

/-- `extract_features` (`app.py` lines 73–85): qualifying section/div texts in
document order, truncated to 5 — no deduplication is performed. -/
def extract_features (sectionTexts : List String) : List String :=
  (sectionTexts.filter featurePred).take 5

/-- Keyword lexicon of `extract_spec_blocks`. -/
def specKeywords : List String :=
  ["km/h", "hp", "kw", "engine", "fuel", "acceleration", "consumption"]

def specBlockPred (t : String) : Bool :=
  (specKeywords.any fun k => hasSub k.toList (lowerChars t)) && decide (t.length < 500)

/-- `extract_spec_blocks` (`app.py` lines 87–99): each accepted block gets the
synthetic key `block_{n+1}` where `n` is the number of blocks accepted so far. -/
def extract_spec_blocks (divTexts : List String) : List (String × Json) :=
  (divTexts.filter specBlockPred).enum.map fun p =>
    ("block_" ++ toString (p.1 + 1), Json.str p.2)

def extract_images (imgSrcs : List (Option String)) : List String :=
  imgSrcs.filterMap fun o =>
    match o with
    | some t => if t = "" then none else if strStarts "data:" t then none else some t
    | none => none

structure RuleData where
  price : Json
  specifications : Json
  features : Json
  images : Json

/-- `rule_based_extract` (`app.py` lines 101–108). -/
def rule_based_extract (doc : Doc) : RuleData :=
  { price := match extract_price doc.text with
      | some s => .str s
      | none => .null
    features := .arr ((extract_features doc.sectionTexts).map Json.str)
    specifications := .obj (extract_spec_blocks doc.divTexts)
    images := .arr ((extract_images doc.imgSrcs).map Json.str) }

/-- The contract of Python's `list(set(xs))`: some duplicate-free enumeration of
the elements of `xs` — CPython does not guarantee any particular order. -/
def PySet (f : List String → List String) : Prop :=
  ∀ xs, (f xs).Nodup ∧ ∀ a, a ∈ f xs ↔ a ∈ xs

def candWords (entities : List Entity) : List String :=
  (entities.filter fun e => e.group == "ORG" || e.group == "MISC").map (·.word)

/-- The `model_candidates` computation of `ner_enrichment` (`app.py` lines
115–119): `list({e["word"] for e in entities if ...})[:10]`, with the set
enumeration order `f` a parameter constrained by `PySet`. -/
def model_candidates (f : List String → List String) (entities : List Entity) : List String :=
  (f (candWords entities)).take 10

/-- `ner_enrichment` (`app.py` lines 112–124). -/
def ner_enrichment (f : List String → List String) (entities : List Entity) : Json :=
  .obj [("model_candidates", .arr ((model_candidates f entities).map Json.str)),
        ("entities", .arr ((entities.take 10).map entityJson))]

/-- The working record of `extract` (`app.py` lines 185–194): `model_name`,
`variant` and `description` are initialized to `None`. -/
def baseResult (rule : RuleData) (nerData : Json) : List (String × Json) :=
  [("model_name", .null), ("variant", .null), ("price", rule.price),
   ("specifications", rule.specifications), ("features", rule.features),
   ("images", rule.images), ("description", .null), ("ner", nerData)]

def requiredKeys : List String :=
  ["model_name", "variant", "description"]

/-- The gap-fill trigger (`app.py` lines 198–201):
`any(not result.get(k) for k in ("model_name", "variant", "description"))`. -/
def missingCheck (result : List (String × Json)) : Bool :=
  requiredKeys.any fun k => !((dictGet result k).getD .null).truthy

structure ReconcileOut where
  result : List (String × Json)
  llm_used : Bool
  llm_calls : Nat

/-- The conditional LLM gap fill and merge (`app.py` lines 197–210): when a
required field is falsy the LLM is called once and its parsed JSON object is
merged with `result.update(make_json_safe(llm_data))`. `llm_data` is the object
the completion returns; `llm_calls` counts invocations of `llm_fallback`. -/
def reconcileStep (result llm_data : List (String × Json)) : ReconcileOut :=
  if missingCheck result then
    { result := dictUpdate result (makeJsonSafePairs llm_data)
      llm_used := true
      llm_calls := 1 }
  else
    { result := result, llm_used := false, llm_calls := 0 }

/-- The data-producing part of the `/extract` handler (`app.py` lines 173–216),
composed from rule extraction, NER enrichment and the reconcile step. -/
def extract_result (doc : Doc) (f : List String → List String) (entities : List Entity)
    (llm_data : List (String × Json)) : ReconcileOut :=
  reconcileStep (baseResult (rule_based_extract doc) (ner_enrichment f entities)) llm_data

end App

/-!
Embedding of `using_ML.py`: the pure rule-based extraction service.
-/
namespace UsingML

def featurePred (t : String) : Bool :=
  decide (5 < t.length) && decide (t.length < 80)

/-- Feature extraction of `extract_car_data_rule_based` (`using_ML.py` lines
48–55): `li` texts in the length window, then `list(dict.fromkeys(features))[:20]`
— deduplicated keeping first occurrences and capped at 20. -/
def features (liTexts : List String) : List String :=
  (pdedup (liTexts.filter featurePred)).take 20

/-- Image extraction of `extract_car_data_rule_based` (`using_ML.py` lines
57–62): truthy `src` attributes that do not start with `data:`. -/
def images (imgSrcs : List (Option String)) : List String :=
  imgSrcs.filterMap fun o =>
    match o with
    | some t => if t = "" then none else if strStarts "data:" t then none else some t
    | none => none

/-- The record caps images at 10 (`using_ML.py` line 71). -/
def imagesRecord (imgSrcs : List (Option String)) : List String :=
  (images imgSrcs).take 10

end UsingML

/-!
Embedding of `using_LLM.py`: the CSV-cached LLM extraction service. The cache
file is modelled as the list of its data rows; `json.dumps`/`json.loads` of a
stored record round-trip, so rows carry the record as a `Json` value.
-/
namespace UsingLLM

structure Usage where
  prompt_tokens : Nat
  completion_tokens : Nat
  total_tokens : Nat
deriving Repr, DecidableEq

structure CacheRow where
  url : String
  usage : Usage
  record : Json
deriving Repr

/-- `get_cached_result` (`using_LLM.py` lines 35–45): linear scan over the
persisted rows in file order, returning the record of the first row whose
stored `url` equals the requested one by exact string comparison. -/
def get_cached_result (cache : List CacheRow) (url : String) : Option Json :=
  (cache.find? (fun row => row.url = url)).map (·.record)

/-- `save_to_csv` (`using_LLM.py` lines 49–58): append one row. -/
def save_to_csv (cache : List CacheRow) (url : String) (usage : Usage) (j : Json) :
    List CacheRow :=
  cache ++ [⟨url, usage, j⟩]

/-- Collaborator outcomes for one request: the HTTP fetch
(`requests.get` + `raise_for_status`), the `OPENAI_API_KEY` lookup, and the LLM
call — on service success, the token usage and the result of `json.loads` on
the completion payload. -/
structure Env where
  fetch : Except String Unit
  apiKey : Option String
  llm : Except String (Usage × Except String Json)

/-- Image collection of `extract_car_data` (`using_LLM.py` line 83): keeps every
truthy `src`; no data-URI exclusion is applied in this variant. -/
def images (imgSrcs : List (Option String)) : List String :=
  imgSrcs.filterMap fun o =>
    match o with
    | some t => if t = "" then none else some t
    | none => none

def successJson (d : Json) : Json :=
  .obj [("success", .bool true), ("data", d)]

def failureJson (e : String) : Json :=
  .obj [("success", .bool false), ("error", .str e)]

/-- The `success` field of a result dict (`result["success"]` truthiness). -/
def resultSuccess (j : Json) : Bool :=
  match j with
  | .obj kvs => ((dictGet kvs "success").getD .null).truthy
  | _ => false

/-- The `data` field of a result dict, when present. -/
def resultData (j : Json) : Option Json :=
  match j with
  | .obj kvs => dictGet kvs "data"
  | _ => none

/-- The `error` field of a result dict, when present. -/
def resultError (j : Json) : Option Json :=
  match j with
  | .obj kvs => dictGet kvs "error"
  | _ => none

structure RunOut where
  result : Json
  cache : List CacheRow
  fetched : Bool
  llm_called : Bool

/-- Steps 2–10 of `extract_car_data` (`using_LLM.py` lines 73–152), the path
taken when the cache check does not short-circuit. Any raised error
(fetch failure, missing API key, LLM service failure, JSON parse failure of the
completion) is caught by the surrounding `except` and reported as a failure
dict; the CSV row is appended only after the completion parses. `fetched` and
`llm_called` record whether the fetch and the LLM call were performed. -/
def runPipeline (cache : List CacheRow) (url : String) (env : Env) : RunOut :=
  match env.fetch with
  | .error e => ⟨failureJson e, cache, true, false⟩
  | .ok _ =>
      match env.apiKey with
      | none => ⟨failureJson "OPENAI_API_KEY not found", cache, true, false⟩
      | some _ =>
          match env.llm with
          | .error e => ⟨failureJson e, cache, true, true⟩
          | .ok (_, .error e) => ⟨failureJson e, cache, true, true⟩
          | .ok (usage, .ok j) => ⟨successJson j, save_to_csv cache url usage j, true, true⟩

/-- `extract_car_data` (`using_LLM.py` lines 62–152): the cached record
short-circuits the pipeline only when it is truthy (`if cached:`). -/
def extract_car_data (cache : List CacheRow) (url : String) (env : Env) : RunOut :=
  match get_cached_result cache url with
  | some c => if c.truthy then ⟨successJson c, cache, false, false⟩ else runPipeline cache url env
  | none => runPipeline cache url env

/-- The `/extract` route of `using_LLM.py` (lines 156–171): 400 when the JSON
body is missing, empty, or lacks `"url"`; otherwise 200 or 500 according to the
`success` flag of the pipeline result. `runReq` is the pipeline applied to the
body's `url` value. -/
def extract_route (body : Option (List (String × Json))) (runReq : Json → Json) :
    Json × Nat :=
  match body with
  | none => (failureJson "Missing 'url' in request body", 400)
  | some data =>
      if data.isEmpty then (failureJson "Missing 'url' in request body", 400)
      else
        match dictGet data "url" with
        | none => (failureJson "Missing 'url' in request body", 400)
        | some u =>
            let result := runReq u
            if resultSuccess result then (result, 200) else (result, 500)

end UsingLLM

/-!
Embedding of `using_HGBert.py`: the NER-based extraction service.
-/
namespace UsingHGBert

/-- Collaborator outcomes: the rendered-page fetch (or the message of the raised
error, e.g. the Playwright timeout), the cleaned truncated page text, the NER
entities on that text, the `img` `src` attributes, and the enumeration order of
`list(set(...))`. -/
structure Env where
  fetch : Except String Unit
  text : String
  entities : List App.Entity
  imgSrcs : List (Option String)
  setEnum : List String → List String

/-- Image extraction (`using_HGBert.py` lines 81–85). -/
def images (imgSrcs : List (Option String)) : List String :=
  imgSrcs.filterMap fun o =>
    match o with
    | some t => if t = "" then none else if strStarts "data:" t then none else some t
    | none => none

/-- The ORG/MISC entity words in recognizer order (`using_HGBert.py` lines 68–71). -/
def brands_models (entities : List App.Entity) : List String :=
  (entities.filter fun e => e.group == "ORG" || e.group == "MISC").map (·.word)

/-- `extract_car_data_ner` (`using_HGBert.py` lines 51–107). -/
def extract_car_data_ner (env : Env) : Json :=
  match env.fetch with
  | .error e => .obj [("success", .bool false), ("error", .str e)]
  | .ok _ =>
      .obj [("success", .bool true),
        ("data", .obj [
          ("possible_model_names",
            .arr (((env.setEnum (brands_models env.entities)).take 10).map Json.str)),
          ("price", match Price.extract_price env.text with
            | some s => .str s
            | none => .null),
          ("entities", .arr ((env.entities.take 15).map App.entityJson)),
          ("images", .arr (((images env.imgSrcs).take 10).map Json.str))])]

/-- The `/extract` route of `using_HGBert.py` (lines 109–115): 400 when the body
is missing, empty, or lacks `"url"`; otherwise the pipeline result is returned
with Flask's default status 200 — no status code is attached. -/
def extract_route (body : Option (List (String × Json))) (runReq : Json → Json) :
    Json × Nat :=
  match body with
  | none => (.obj [("success", .bool false), ("error", .str "Missing url")], 400)
  | some data =>
      if data.isEmpty then (.obj [("success", .bool false), ("error", .str "Missing url")], 400)
      else
        match dictGet data "url" with
        | none => (.obj [("success", .bool false), ("error", .str "Missing url")], 400)
        | some u => (runReq u, 200)

end UsingHGBert

/-- A required field is missing or empty in the working record: absent, `None`,
or the empty string. -/
def App.FieldMissing (r : List (String × Json)) (k : String) : Prop :=
  dictGet r k = none ∨ dictGet r k = some .null ∨ dictGet r k = some (.str "")

theorem missingFlag_iff (r : List (String × Json)) (k : String)
    (hk : dictGet r k = none ∨ dictGet r k = some .null ∨ ∃ s, dictGet r k = some (.str s)) :
    ((!((dictGet r k).getD .null).truthy) = true ↔ App.FieldMissing r k) := by
  rcases hk with h | h | ⟨s, h⟩
  · simp [h, App.FieldMissing, Json.truthy]
  · simp [h, App.FieldMissing, Json.truthy]
  · by_cases hs : s = ""
    · subst hs; simp [h, App.FieldMissing, Json.truthy]
    · simp [h, App.FieldMissing, Json.truthy, hs]

theorem missingCheck_iff (r : List (String × Json))
    (hfields : ∀ k ∈ App.requiredKeys,
      dictGet r k = none ∨ dictGet r k = some .null ∨ ∃ s, dictGet r k = some (.str s)) :
    (App.missingCheck r = true ↔
      App.FieldMissing r "model_name" ∨ App.FieldMissing r "variant" ∨
        App.FieldMissing r "description") := by
  have h1 := missingFlag_iff r "model_name" (hfields _ (by simp [App.requiredKeys]))
  have h2 := missingFlag_iff r "variant" (hfields _ (by simp [App.requiredKeys]))
  have h3 := missingFlag_iff r "description" (hfields _ (by simp [App.requiredKeys]))
  simp only [App.missingCheck, App.requiredKeys, List.any_cons, List.any_nil,
    Bool.or_eq_true, or_false]
  rw [h1, h2, h3]
  simp

/-- C2: the GapFiller (LLM completion) is invoked if and only if at least one of
the required fields `model_name`, `variant`, `description` is missing or empty
in the working record (absent, `None`, or `""`); when none is missing no LLM
call is made and `llm_used` is `false`; the call is made at most once, and
`llm_used` is `true` exactly when it is made. The hypothesis restricts the
required fields to the value shapes the pipeline produces for them (absent,
`None`, or a string). -/
theorem c2_gapfill_iff (r llm_data : List (String × Json))
    (hfields : ∀ k ∈ App.requiredKeys,
      dictGet r k = none ∨ dictGet r k = some .null ∨ ∃ s, dictGet r k = some (.str s)) :
    (App.reconcileStep r llm_data).llm_calls ≤ 1 ∧
    ((App.reconcileStep r llm_data).llm_calls = 1 ↔
      App.FieldMissing r "model_name" ∨ App.FieldMissing r "variant" ∨
        App.FieldMissing r "description") ∧
    ((App.reconcileStep r llm_data).llm_used = true ↔
      (App.reconcileStep r llm_data).llm_calls = 1) := by
  by_cases hm : App.missingCheck r = true
  · have hd := (missingCheck_iff r hfields).mp hm
    simp [App.reconcileStep, hm, hd]
  · have hd : ¬ (App.FieldMissing r "model_name" ∨ App.FieldMissing r "variant" ∨
        App.FieldMissing r "description") :=
      fun h => hm ((missingCheck_iff r hfields).mpr h)
    simp [App.reconcileStep, hm, hd]

/-- Witness for `c2_gapfill_iff`: with all three required fields populated by
nonempty strings, no LLM call is made and `llm_used` is `false`. -/
theorem c2_gapfill_iff_witness :
    (App.reconcileStep [("model_name", Json.str "A"), ("variant", Json.str "B"),
        ("description", Json.str "C")] [("model_name", Json.str "Z")]).llm_calls ≤ 1 ∧
    ((App.reconcileStep [("model_name", Json.str "A"), ("variant", Json.str "B"),
        ("description", Json.str "C")] [("model_name", Json.str "Z")]).llm_calls = 1 ↔
      App.FieldMissing [("model_name", Json.str "A"), ("variant", Json.str "B"),
        ("description", Json.str "C")] "model_name" ∨
      App.FieldMissing [("model_name", Json.str "A"), ("variant", Json.str "B"),
        ("description", Json.str "C")] "variant" ∨
      App.FieldMissing [("model_name", Json.str "A"), ("variant", Json.str "B"),
        ("description", Json.str "C")] "description") ∧
    ((App.reconcileStep [("model_name", Json.str "A"), ("variant", Json.str "B"),
        ("description", Json.str "C")] [("model_name", Json.str "Z")]).llm_used = true ↔
      (App.reconcileStep [("model_name", Json.str "A"), ("variant", Json.str "B"),
        ("description", Json.str "C")] [("model_name", Json.str "Z")]).llm_calls = 1) :=
  c2_gapfill_iff _ _ (by
    intro k hk
    simp only [App.requiredKeys, List.mem_cons, List.not_mem_nil, or_false] at hk
    rcases hk with rfl | rfl | rfl
    · exact Or.inr (Or.inr ⟨"A", rfl⟩)
    · exact Or.inr (Or.inr ⟨"B", rfl⟩)
    · exact Or.inr (Or.inr ⟨"C", rfl⟩))

/-- C10: in the composed `app.py` pipeline the working record's `model_name`,
`variant` and `description` are initialized to `None` and no rule or entity
stage writes them, so for every request reaching the reconcile step the missing
condition holds, the LLM gap fill runs exactly once, and `llm_used` is `true` —
for all collaborator outputs. -/
theorem c10_llm_always_used (doc : App.Doc) (f : List String → List String)
    (entities : List App.Entity) (llm_data : List (String × Json)) :
    dictGet (App.baseResult (App.rule_based_extract doc) (App.ner_enrichment f entities))
        "model_name" = some .null ∧
    dictGet (App.baseResult (App.rule_based_extract doc) (App.ner_enrichment f entities))
        "variant" = some .null ∧
    dictGet (App.baseResult (App.rule_based_extract doc) (App.ner_enrichment f entities))
        "description" = some .null ∧
    App.missingCheck (App.baseResult (App.rule_based_extract doc) (App.ner_enrichment f entities))
        = true ∧
    (App.extract_result doc f entities llm_data).llm_used = true ∧
    (App.extract_result doc f entities llm_data).llm_calls = 1 :=
  ⟨rfl, rfl, rfl, rfl, rfl, rfl⟩

/-- Rule output for the specification's merge example: rule extraction already
populated `specifications.Engine = "2.0L"`. -/
def c1Rule : App.RuleData :=
  ⟨.null, .obj [("Engine", Json.str "2.0L")], .arr [], .arr []⟩

/-- An LLM completion proposing a different `Engine` value for the merge example. -/
def c1Llm : List (String × Json) :=
  [("model_name", Json.str "Model S"), ("variant", Json.str "Long Range"),
   ("specifications", .obj [("Engine", Json.str "1.8L")]),
   ("features", .arr []), ("description", Json.str "desc")]

/-- C1 counterexample: with `specifications.Engine = "2.0L"` populated by rule
extraction and an LLM completion proposing `Engine = "1.8L"`, the merged record
holds `"1.8L"`: `result.update(make_json_safe(llm_data))` overwrites the
rule-derived field, contradicting the claimed merge policy. -/
theorem c1_counterexample :
    App.missingCheck (App.baseResult c1Rule .null) = true ∧
    dictGet (App.baseResult c1Rule .null) "specifications"
      = some (.obj [("Engine", Json.str "2.0L")]) ∧
    dictGet (App.reconcileStep (App.baseResult c1Rule .null) c1Llm).result "specifications"
      = some (.obj [("Engine", Json.str "1.8L")]) ∧
    (Json.obj [("Engine", Json.str "1.8L")]) ≠ (Json.obj [("Engine", Json.str "2.0L")]) := by
  refine ⟨rfl, rfl, rfl, ?_⟩
  simp

/-- C1 amended: when the gap fill runs, `result.update` gives the LLM value
precedence — a field keeps its prior (rule-derived) value only when the LLM
object does not bind its key; every key the LLM object binds ends with the
LLM's (last-bound) value. -/
theorem c1_amended (r llm_data : List (String × Json)) (k : String)
    (hmiss : App.missingCheck r = true) :
    (lastGet llm_data k = none →
        dictGet (App.reconcileStep r llm_data).result k = dictGet r k) ∧
    ∀ v, lastGet llm_data k = some v →
        dictGet (App.reconcileStep r llm_data).result k = some (makeJsonSafe v) := by
  unfold App.reconcileStep
  rw [if_pos hmiss]
  constructor
  · intro h
    rw [dictGet_dictUpdate, lastGet_makeJsonSafePairs, h]
    simp
  · intro v h
    rw [dictGet_dictUpdate, lastGet_makeJsonSafePairs, h]
    simp

/-- Witness for `c1_amended` at the merge example: `price` (not bound by the
LLM object) is preserved, `specifications` (bound by it) becomes the LLM value. -/
theorem c1_amended_witness :
    dictGet (App.reconcileStep (App.baseResult c1Rule .null) c1Llm).result "price"
        = dictGet (App.baseResult c1Rule .null) "price" ∧
    dictGet (App.reconcileStep (App.baseResult c1Rule .null) c1Llm).result "specifications"
        = some (makeJsonSafe (.obj [("Engine", Json.str "1.8L")])) :=
  ⟨(c1_amended (App.baseResult c1Rule .null) c1Llm "price" rfl).1 rfl,
   (c1_amended (App.baseResult c1Rule .null) c1Llm "specifications" rfl).2 _ rfl⟩

/-- C4: for every input text the price extractor returns the first match in
document order of the currency-marker pattern — a marker from the fixed set,
an optional single whitespace, a `[\d,]` amount run with optional decimal part
(`PriceShaped`) — and `None` exactly when no position of the text begins such a
match; the specification's four concrete examples behave as stated. -/
theorem c4_price_extractor (t : String) :
    (Price.extract_price t = none ↔
      ∀ i, ¬ ∃ m, Price.PriceShaped m ∧ Price.HeadMatch m (t.toList.drop i)) ∧
    (∀ s, Price.extract_price t = some s →
      Price.PriceShaped s.toList ∧
      ∃ i, Price.HeadMatch s.toList (t.toList.drop i) ∧
        ∀ j, j < i → ¬ ∃ m, Price.PriceShaped m ∧ Price.HeadMatch m (t.toList.drop j)) ∧
    Price.extract_price "$19,499" = some "$19,499" ∧
    Price.extract_price "₹12,50,000" = some "₹12,50,000" ∧
    Price.extract_price "INR 500000" = some "INR 500000" ∧
    Price.extract_price "19499" = none := by
  refine ⟨?_, ?_, by decide, by decide, by decide, by decide⟩
  · have hiff : Price.extract_price t = none ↔ Price.searchPrice t.toList = none := by
      unfold Price.extract_price
      rcases Price.searchPrice t.toList with _ | m <;> simp
    rw [hiff, Price.searchPrice_eq_none_iff]
    exact forall_congr' fun i => Price.matchPriceAt_none_iff _
  · intro s hs
    unfold Price.extract_price at hs
    rw [Option.map_eq_some'] at hs
    obtain ⟨cs, hcs, hmk⟩ := hs
    have hlist : s.toList = cs := by rw [← hmk]; rfl
    obtain ⟨i, hi, hlt⟩ := Price.searchPrice_some _ _ hcs
    obtain ⟨hshape, hhm⟩ := Price.matchPriceAt_some _ _ hi
    rw [hlist]
    exact ⟨hshape, i, hhm, fun j hj => (Price.matchPriceAt_none_iff _).mp (hlt j hj)⟩

/-- Witness for `c4_price_extractor`: the some-case characterization applied to
the input `"$19,499"`. -/
theorem c4_price_extractor_witness :
    Price.PriceShaped (String.toList "$19,499") ∧
    ∃ i, Price.HeadMatch (String.toList "$19,499") ((String.toList "$19,499").drop i) ∧
      ∀ j, j < i → ¬ ∃ m, Price.PriceShaped m ∧
        Price.HeadMatch m ((String.toList "$19,499").drop j) :=
  (c4_price_extractor "$19,499").2.1 "$19,499" (by decide)

/-- A `section`/`div` text (97 characters, contains "feature") qualifying for
`extract_features` in `app.py`. -/
def c5Text : String :=
  "The feature set includes a panoramic sunroof, heated leather seats and a digital display cockpit."

/-- C5 counterexample: `extract_features` in `app.py` performs no
deduplication — a page with two sections of identical qualifying text yields
the same feature text twice. -/
theorem c5_counterexample :
    App.featurePred c5Text = true ∧
    App.extract_features [c5Text, c5Text] = [c5Text, c5Text] ∧
    ¬ (App.extract_features [c5Text, c5Text]).Nodup := by
  refine ⟨by decide, by decide, by decide⟩

/-- C5 amended: the `using_ML.py` extractor deduplicates features keeping first
occurrences and caps at 20 (and realizes the specification's concrete example);
the `app.py` extractor caps at 5 without deduplicating (`c5_counterexample`). -/
theorem c5_amended (liTexts : List String) :
    (UsingML.features liTexts).Nodup ∧
    List.Sublist (UsingML.features liTexts) (liTexts.filter UsingML.featurePred) ∧
    (UsingML.features liTexts).length ≤ 20 ∧
    UsingML.features ["Leather seats", "Leather seats", "Sunroof"]
      = ["Leather seats", "Sunroof"] := by
  refine ⟨?_, ?_, ?_, by decide⟩
  · exact (List.take_sublist _ _).nodup (nodup_pdedup _)
  · exact (List.take_sublist _ _).trans (sublist_pdedup _)
  · exact List.length_take_le _ _

theorem not_data_of_mem_filter (srcs : List (Option String)) (s : String)
    (h : s ∈ srcs.filterMap fun o =>
      match o with
      | some t => if t = "" then none else if strStarts "data:" t then none else some t
      | none => none) :
    strStarts "data:" s = false := by
  rw [List.mem_filterMap] at h
  obtain ⟨o, _, ho⟩ := h
  rcases o with _ | t
  · exact Option.noConfusion ho
  · dsimp only at ho
    by_cases h1 : t = ""
    · rw [if_pos h1] at ho
      exact Option.noConfusion ho
    · rw [if_neg h1] at ho
      by_cases h2 : strStarts "data:" t = true
      · rw [if_pos h2] at ho
        exact Option.noConfusion ho
      · rw [if_neg h2] at ho
        obtain rfl := Option.some.inj ho
        cases hb : strStarts "data:" t
        · rfl
        · exact absurd hb h2

/-- C6 counterexample: the `using_LLM.py` strategy keeps every truthy image
`src`, including data URIs — no embedded-data exclusion exists in that variant. -/
theorem c6_counterexample :
    UsingLLM.images [some "data:image/png;base64,AAAA"]
      = ["data:image/png;base64,AAAA"] ∧
    strStarts "data:" "data:image/png;base64,AAAA" = true :=
  ⟨rfl, by decide⟩

/-- C6 amended: the image lists extracted by `app.py`, `using_ML.py` and
`using_HGBert.py` never contain a source starting with `data:`; the
`using_LLM.py` variant provides no such guarantee (`c6_counterexample`). -/
theorem c6_amended (srcs : List (Option String)) :
    ((App.extract_images srcs).all fun s => !(strStarts "data:" s)) = true ∧
    ((UsingML.images srcs).all fun s => !(strStarts "data:" s)) = true ∧
    ((UsingHGBert.images srcs).all fun s => !(strStarts "data:" s)) = true := by
  refine ⟨?_, ?_, ?_⟩
  all_goals
    rw [List.all_eq_true]
    intro s hs
    simp only [Bool.not_eq_true']
    exact not_data_of_mem_filter srcs s hs

/-- The claim's reading of the candidate list: ORG/MISC words deduplicated by
surface text keeping first occurrences, capped at 10. -/
def App.firstAppearanceCands (entities : List App.Entity) : List String :=
  (pdedup (App.candWords entities)).take 10

/-- An admissible enumeration for `list(set(xs))` that reverses first-appearance
order: duplicate-free and membership-preserving, as `PySet` requires. -/
def revEnum (xs : List String) : List String :=
  (pdedup xs).reverse

theorem revEnum_pyset : App.PySet revEnum := by
  intro xs
  constructor
  · exact List.nodup_reverse.mpr (nodup_pdedup xs)
  · intro a
    rw [revEnum, List.mem_reverse]
    exact mem_pdedup xs a

def c9Entities : List App.Entity :=
  [⟨"BMW", "ORG"⟩, ⟨"X5", "MISC"⟩]

/-- C9 counterexample: `list({...})` gives CPython's set enumeration order,
which is not guaranteed to be first-appearance order — under the admissible
enumeration `revEnum` the candidate list for two ORG/MISC entities is reversed,
so the claimed ordering does not hold of the code. -/
theorem c9_counterexample :
    App.PySet revEnum ∧
    App.firstAppearanceCands c9Entities = ["BMW", "X5"] ∧
    App.model_candidates revEnum c9Entities = ["X5", "BMW"] ∧
    App.model_candidates revEnum c9Entities ≠ App.firstAppearanceCands c9Entities :=
  ⟨revEnum_pyset, by decide, by decide, by decide⟩

/-- C9 amended: for every admissible set enumeration the candidate list is
duplicate-free, drawn from the ORG/MISC entity words, capped at 10, and — when
at most 10 distinct candidates exist — contains exactly the distinct ORG/MISC
words; its order is implementation-defined rather than first-appearance. -/
theorem c9_amended (f : List String → List String) (hf : App.PySet f)
    (entities : List App.Entity) :
    (App.model_candidates f entities).Nodup ∧
    (∀ w ∈ App.model_candidates f entities, w ∈ App.candWords entities) ∧
    (App.model_candidates f entities).length ≤ 10 ∧
    ((f (App.candWords entities)).length ≤ 10 →
      ∀ w, w ∈ App.model_candidates f entities ↔ w ∈ App.candWords entities) := by
  obtain ⟨hnd, hmem⟩ := hf (App.candWords entities)
  refine ⟨(List.take_sublist _ _).nodup hnd, ?_, List.length_take_le _ _, ?_⟩
  · intro w hw
    exact (hmem w).mp (List.mem_of_mem_take hw)
  · intro hlen w
    rw [App.model_candidates, List.take_of_length_le hlen]
    exact hmem w

/-- Witness for `c9_amended`: `pdedup` itself is an admissible enumeration. -/
theorem c9_amended_witness :
    (App.model_candidates pdedup c9Entities).Nodup ∧
    (App.model_candidates pdedup c9Entities).length ≤ 10 :=
  ⟨(c9_amended pdedup (fun xs => ⟨nodup_pdedup xs, fun a => mem_pdedup xs a⟩) c9Entities).1,
   (c9_amended pdedup (fun xs => ⟨nodup_pdedup xs, fun a => mem_pdedup xs a⟩) c9Entities).2.2.1⟩

theorem get_cached_scan (cache : List UsingLLM.CacheRow) (url : String) (r : Json) :
    UsingLLM.get_cached_result cache url = some r ↔
      ∃ pre row post, cache = pre ++ row :: post ∧ row.url = url ∧ row.record = r ∧
        ∀ q ∈ pre, q.url ≠ url := by
  unfold UsingLLM.get_cached_result
  rw [Option.map_eq_some']
  constructor
  · rintro ⟨row, hf, hrec⟩
    rw [List.find?_eq_some] at hf
    obtain ⟨hp, pre, post, hcache, hpre⟩ := hf
    refine ⟨pre, row, post, hcache, by simpa using hp, hrec, ?_⟩
    intro q hq
    simpa using hpre q hq
  · rintro ⟨pre, row, post, hcache, hurl, hrec, hpre⟩
    refine ⟨row, ?_, hrec⟩
    rw [List.find?_eq_some]
    refine ⟨by simpa using hurl, pre, post, hcache, ?_⟩
    intro q hq
    simpa using hpre q hq

def c3Cache : List UsingLLM.CacheRow :=
  [⟨"https://cars.example/a", ⟨10, 20, 30⟩, .obj []⟩]

def c3Env : UsingLLM.Env :=
  ⟨.error "network down", none, .error "no llm"⟩

/-- C3 counterexample: the cache check is `if cached:` — a stored entry whose
record is an empty JSON object is treated as a miss, so a request whose URL
exactly matches that entry still performs the fetch (which here fails) instead
of returning the stored record. -/
theorem c3_counterexample :
    UsingLLM.get_cached_result c3Cache "https://cars.example/a" = some (.obj []) ∧
    (UsingLLM.extract_car_data c3Cache "https://cars.example/a" c3Env).fetched = true ∧
    (UsingLLM.extract_car_data c3Cache "https://cars.example/a" c3Env).result
      = UsingLLM.failureJson "network down" :=
  ⟨rfl, rfl, rfl⟩

/-- C3 amended: lookup is a linear scan returning the record of the first row
whose stored url equals the requested url by exact string equality (urls
differing by a trailing slash are distinct); for every request whose url
matches a stored entry with a non-empty (truthy) record, that record is
returned and neither a fetch nor an LLM call is performed; an entry with an
empty record is treated as a miss (`c3_counterexample`). -/
theorem c3_amended (cache : List UsingLLM.CacheRow) (url : String) (env : UsingLLM.Env) :
    (∀ r, UsingLLM.get_cached_result cache url = some r ↔
      ∃ pre row post, cache = pre ++ row :: post ∧ row.url = url ∧ row.record = r ∧
        ∀ q ∈ pre, q.url ≠ url) ∧
    (∀ r, UsingLLM.get_cached_result cache url = some r → r.truthy = true →
      UsingLLM.extract_car_data cache url env =
        ⟨UsingLLM.successJson r, cache, false, false⟩) ∧
    UsingLLM.get_cached_result
      [⟨"https://x.com/a", ⟨0, 0, 0⟩, .obj [("k", Json.str "v")]⟩] "https://x.com/a/"
      = none ∧
    UsingLLM.get_cached_result
      [⟨"https://x.com/a", ⟨0, 0, 0⟩, .obj [("k", Json.str "v")]⟩] "https://x.com/a"
      = some (.obj [("k", Json.str "v")]) := by
  refine ⟨fun r => get_cached_scan cache url r, ?_, rfl, rfl⟩
  intro r hr htr
  unfold UsingLLM.extract_car_data
  rw [hr]
  dsimp only
  rw [if_pos htr]

/-- Witness for `c3_amended`: a truthy cached record short-circuits the
pipeline — the stored record is returned, nothing is fetched, nothing appended. -/
theorem c3_amended_witness :
    UsingLLM.extract_car_data
        [⟨"u", ⟨1, 1, 2⟩, .obj [("k", Json.str "v")]⟩] "u" c3Env =
      ⟨UsingLLM.successJson (.obj [("k", Json.str "v")]),
        [⟨"u", ⟨1, 1, 2⟩, .obj [("k", Json.str "v")]⟩], false, false⟩ :=
  (c3_amended [⟨"u", ⟨1, 1, 2⟩, .obj [("k", Json.str "v")]⟩] "u" c3Env).2.1
    (.obj [("k", Json.str "v")]) rfl rfl

theorem runPipeline_spec (cache : List UsingLLM.CacheRow) (url : String)
    (env : UsingLLM.Env) :
    (UsingLLM.resultSuccess (UsingLLM.runPipeline cache url env).result = false →
      UsingLLM.resultData (UsingLLM.runPipeline cache url env).result = none ∧
      (∃ e, UsingLLM.resultError (UsingLLM.runPipeline cache url env).result
        = some (.str e)) ∧
      (UsingLLM.runPipeline cache url env).cache = cache) ∧
    ((UsingLLM.runPipeline cache url env).cache ≠ cache →
      UsingLLM.resultSuccess (UsingLLM.runPipeline cache url env).result = true) := by
  obtain ⟨fetch, apiKey, llm⟩ := env
  rcases fetch with e | u
  · exact ⟨fun _ => ⟨rfl, ⟨e, rfl⟩, rfl⟩, fun h => absurd rfl h⟩
  · rcases apiKey with _ | key
    · exact ⟨fun _ => ⟨rfl, ⟨"OPENAI_API_KEY not found", rfl⟩, rfl⟩, fun h => absurd rfl h⟩
    · rcases llm with e | ⟨usage, pj⟩
      · exact ⟨fun _ => ⟨rfl, ⟨e, rfl⟩, rfl⟩, fun h => absurd rfl h⟩
      · rcases pj with e | j
        · exact ⟨fun _ => ⟨rfl, ⟨e, rfl⟩, rfl⟩, fun h => absurd rfl h⟩
        · exact ⟨fun h => Bool.noConfusion h, fun _ => rfl⟩

/-- C7: whenever a request fails at any stage (fetch error, missing API key,
LLM service failure, or an unparsable completion payload), the result carries
no record data and a string error message, and the cache is unchanged; the
cache grows only on terminal success. -/
theorem c7_failures_not_cached (cache : List UsingLLM.CacheRow) (url : String)
    (env : UsingLLM.Env) :
    (UsingLLM.resultSuccess (UsingLLM.extract_car_data cache url env).result = false →
      UsingLLM.resultData (UsingLLM.extract_car_data cache url env).result = none ∧
      (∃ e, UsingLLM.resultError (UsingLLM.extract_car_data cache url env).result
        = some (.str e)) ∧
      (UsingLLM.extract_car_data cache url env).cache = cache) ∧
    ((UsingLLM.extract_car_data cache url env).cache ≠ cache →
      UsingLLM.resultSuccess (UsingLLM.extract_car_data cache url env).result = true) := by
  rcases hC : UsingLLM.get_cached_result cache url with _ | c
  · have hrun : UsingLLM.extract_car_data cache url env = UsingLLM.runPipeline cache url env := by
      unfold UsingLLM.extract_car_data
      rw [hC]
    rw [hrun]
    exact runPipeline_spec cache url env
  · by_cases ht : c.truthy = true
    · have hres : UsingLLM.extract_car_data cache url env =
          ⟨UsingLLM.successJson c, cache, false, false⟩ := by
        unfold UsingLLM.extract_car_data
        rw [hC]
        dsimp only
        rw [if_pos ht]
      rw [hres]
      exact ⟨fun h => Bool.noConfusion h, fun h => absurd rfl h⟩
    · have hres : UsingLLM.extract_car_data cache url env = UsingLLM.runPipeline cache url env := by
        unfold UsingLLM.extract_car_data
        rw [hC]
        dsimp only
        rw [if_neg ht]
      rw [hres]
      exact runPipeline_spec cache url env

/-- Witness for `c7_failures_not_cached`: a failing fetch yields an error
result with no data and leaves the cache empty. -/
theorem c7_failures_not_cached_witness :
    UsingLLM.resultData
        (UsingLLM.extract_car_data [] "u" ⟨.error "net down", none, .error "llm"⟩).result
      = none ∧
    (UsingLLM.extract_car_data [] "u" ⟨.error "net down", none, .error "llm"⟩).cache = [] :=
  ⟨((c7_failures_not_cached [] "u" ⟨.error "net down", none, .error "llm"⟩).1 rfl).1,
   ((c7_failures_not_cached [] "u" ⟨.error "net down", none, .error "llm"⟩).1 rfl).2.2⟩

def c8FailEnv : UsingHGBert.Env :=
  ⟨.error "Page load timed out (JS-heavy site)", "", [], [], id⟩

/-- C8 counterexample: the `using_HGBert.py` `/extract` route attaches no status
code — a pipeline failure (here a page-load timeout) is returned with Flask's
default status 200, not 500. -/
theorem c8_counterexample :
    UsingHGBert.extract_route (some [("url", Json.str "https://x.com/a")])
        (fun _ => UsingHGBert.extract_car_data_ner c8FailEnv) =
      (.obj [("success", Json.bool false),
        ("error", Json.str "Page load timed out (JS-heavy site)")], 200) ∧
    (200 : Nat) ≠ 500 :=
  ⟨rfl, by decide⟩

/-- C8 amended: a missing body or missing `url` key yields 400 with a
success-false/error-string payload in both routed variants; on pipeline
failure `using_LLM.py` returns 500 and on success 200, while `using_HGBert.py`
returns the pipeline payload with status 200 regardless of success
(`c8_counterexample`). -/
theorem c8_amended (runL runH : Json → Json) (data : List (String × Json)) (u : Json) :
    UsingLLM.extract_route none runL
      = (UsingLLM.failureJson "Missing 'url' in request body", 400) ∧
    UsingHGBert.extract_route none runH
      = (.obj [("success", Json.bool false), ("error", Json.str "Missing url")], 400) ∧
    (dictGet data "url" = none →
      UsingLLM.extract_route (some data) runL
        = (UsingLLM.failureJson "Missing 'url' in request body", 400) ∧
      UsingHGBert.extract_route (some data) runH
        = (.obj [("success", Json.bool false), ("error", Json.str "Missing url")], 400)) ∧
    (dictGet data "url" = some u →
      (UsingLLM.resultSuccess (runL u) = true →
        UsingLLM.extract_route (some data) runL = (runL u, 200)) ∧
      (UsingLLM.resultSuccess (runL u) = false →
        UsingLLM.extract_route (some data) runL = (runL u, 500)) ∧
      UsingHGBert.extract_route (some data) runH = (runH u, 200)) := by
  refine ⟨rfl, rfl, ?_, ?_⟩
  · intro h
    cases data with
    | nil => exact ⟨rfl, rfl⟩
    | cons p rest =>
      constructor
      · unfold UsingLLM.extract_route
        simp [h]
      · unfold UsingHGBert.extract_route
        simp [h]
  · intro h
    cases data with
    | nil => exact absurd h (by rw [dictGet_nil]; exact Option.noConfusion)
    | cons p rest =>
      refine ⟨?_, ?_, ?_⟩
      · intro hs
        unfold UsingLLM.extract_route
        simp [h, hs]
      · intro hs
        unfold UsingLLM.extract_route
        simp [h, hs]
      · unfold UsingHGBert.extract_route
        simp [h]

/-- Witness for `c8_amended`: a failing pipeline behind the `using_LLM.py`
route produces status 500; the same payload behind the `using_HGBert.py` route
produces status 200. -/
theorem c8_amended_witness :
    UsingLLM.extract_route (some [("url", Json.str "u")])
        (fun _ => UsingLLM.failureJson "boom") = (UsingLLM.failureJson "boom", 500) ∧
    UsingHGBert.extract_route (some [("url", Json.str "u")])
        (fun _ => UsingLLM.failureJson "boom") = (UsingLLM.failureJson "boom", 200) :=
  ⟨((c8_amended (fun _ => UsingLLM.failureJson "boom") (fun _ => UsingLLM.failureJson "boom")
      [("url", Json.str "u")] (Json.str "u")).2.2.2 rfl).2.1 rfl,
   ((c8_amended (fun _ => UsingLLM.failureJson "boom") (fun _ => UsingLLM.failureJson "boom")
      [("url", Json.str "u")] (Json.str "u")).2.2.2 rfl).2.2⟩
